import Mathlib

/-!
Verification development for `roiorbison/xmlparser.py`.

The module streams XML bytes from an input queue, detects the root element,
and hands completed direct children of the root to two sink queues, trimming
the in-memory tree as it goes.  We shallowly embed the module's functions
over a model of the lxml incremental pull-parsing primitive and prove or
refute the specified properties.
-/

namespace Roiorbison

/-- Byte/character sequences; chunks and tag names are lists of characters. -/
abbrev Str := List Char

/-- Model of an lxml `_Element` value as seen by consumers: tag, text
(before the first child), tail (text after this element's end tag inside
its parent), and the completed children.  Attributes are not modelled:
no property under consideration mentions them. -/
inductive XNode where
  | mk (tag : Str) (text : Str) (tail : Str) (children : List XNode)

mutual

/-- Decidable equality on `XNode` (the `deriving` handler does not support
this nested inductive, so it is spelled out). -/
def XNode.deq : (a b : XNode) → Decidable (a = b)
  | .mk t x l cs, .mk t' x' l' cs' =>
    match decEq t t', decEq x x', decEq l l', XNode.deqList cs cs' with
    | isTrue h1, isTrue h2, isTrue h3, isTrue h4 => isTrue (by rw [h1, h2, h3, h4])
    | isFalse h, _, _, _ => isFalse (by intro he; cases he; exact h rfl)
    | _, isFalse h, _, _ => isFalse (by intro he; cases he; exact h rfl)
    | _, _, isFalse h, _ => isFalse (by intro he; cases he; exact h rfl)
    | _, _, _, isFalse h => isFalse (by intro he; cases he; exact h rfl)

/-- Decidable equality on lists of `XNode`. -/
def XNode.deqList : (a b : List XNode) → Decidable (a = b)
  | [], [] => isTrue rfl
  | [], _ :: _ => isFalse (by intro h; cases h)
  | _ :: _, [] => isFalse (by intro h; cases h)
  | c :: cs, d :: ds =>
    match XNode.deq c d, XNode.deqList cs ds with
    | isTrue h1, isTrue h2 => isTrue (by rw [h1, h2])
    | isFalse h, _ => isFalse (by intro he; cases he; exact h rfl)
    | _, isFalse h => isFalse (by intro he; cases he; exact h rfl)

end

instance : DecidableEq XNode := XNode.deq

instance : DecidableEq (List XNode) := XNode.deqList

def XNode.tag : XNode → Str
  | .mk t _ _ _ => t

def XNode.text : XNode → Str
  | .mk _ x _ _ => x

def XNode.tail : XNode → Str
  | .mk _ _ l _ => l

def XNode.children : XNode → List XNode
  | .mk _ _ _ cs => cs

/-- lxml `element.clear()`: removes all subelements and resets text and
tail (and attributes, not modelled); the tag is kept. -/
def clearNode : XNode → XNode
  | .mk t _ _ _ => .mk t [] [] []

/-- Python errors that the embedded code can produce.  `typeError` stands
for `TypeError` (for example unpacking a coroutine object, or indexing into
`None`); `lxmlError` stands for `lxml.etree.LxmlError`, the class caught at
line 103 of `xmlparser.py`. -/
inductive PyErr where
  | typeError
  | lxmlError
deriving DecidableEq

/-- One ancestor level above the parent of the element handed to
`_trim_tree`; `_trim_tree` (lines 15-20) dereferences only the element and
its direct parent, so these frames are carried through untouched.  The data
is the ancestor element's own tag, text and tail plus the siblings on
either side of the spine. -/
structure AncEntry where
  tag : Str
  text : Str
  tail : Str
  before : List XNode
  after : List XNode
deriving DecidableEq

/-- An lxml element in context, as `_trim_tree` sees it: either the root
element (`getparent()` is `None`), or an element at index `i` of its
parent's child list `cs`, with the chain of strictly higher ancestors
`anc`. -/
inductive TrimCtx where
  | root (n : XNode)
  | child (anc : List AncEntry) (cs : List XNode) (i : Nat)
deriving DecidableEq

/-- lxml `element.getprevious()`: the sibling immediately before the
element, or `none` when the element is the root or is its parent's first
child. -/
def TrimCtx.getprev : TrimCtx → Option XNode
  | .root _ => none
  | .child _ _ 0 => none
  | .child _ cs (i + 1) => cs.get? i

/-- Line 20, `del parent[0]`, where `parent` is the value captured by
`parent = element.getparent()` at line 17: deleting index 0 of `None`
raises `TypeError`; otherwise the parent's first child is removed, which
shifts the element's index down by one. -/
def TrimCtx.delParentFirst : TrimCtx → Except PyErr TrimCtx
  | .root _ => .error .typeError
  | .child a cs i => .ok (.child a cs.tail (i - 1))

/-- Line 18, `element.clear()`, performed in place. -/
def TrimCtx.clearElem : TrimCtx → TrimCtx
  | .root n => .root (clearNode n)
  | .child a cs i => .child a (cs.take i ++ (cs.drop i).modifyHead clearNode) i

/-- Lines 19-20: `while element.getprevious() is not None: del parent[0]`.
When the guard holds the parent is necessarily present (a sibling exists),
so the body `TrimCtx.delParentFirst` takes its `.ok` branch, removing the
parent's first child; the `.root` case exits at the guard without ever
evaluating `del None[0]`. -/
def trimLoop : TrimCtx → Except PyErr TrimCtx
  | .root n => .ok (.root n)
  | .child a cs 0 => .ok (.child a cs 0)
  | .child a cs (i + 1) =>
    if (cs.get? i).isSome then trimLoop (.child a cs.tail i)
    else .ok (.child a cs (i + 1))
termination_by c => match c with
  | .root _ => 0
  | .child _ _ i => i

/-- `_trim_tree` (lines 15-20): capture the parent, clear the element,
then delete the parent's first child while the element still has a
preceding sibling. -/
def trimTree (c : TrimCtx) : Except PyErr TrimCtx :=
  trimLoop c.clearElem

/-! ## Model of the lxml incremental pull parser

`etree.XMLPullParser` (an external library primitive, modelled here from
its documented contract, spec section 4.2): `feed` appends bytes to an
internal buffer and consumes them as far as complete tokens allow,
building a live element tree and queueing "start" or "end" events;
`read_events` yields the queued events, which reference the live elements
by object identity.  The modelled markup subset covers start tags, end
tags, self-closing tags, character data, and skipped `<!...>`/`<?...>`
tokens; attributes, entities and `>` inside comments or attribute values
are outside the subset (no property under consideration exercises them).
-/

/-- Node of the live element tree.  `nid` models Python object identity of
the element: queued events reference their element by identity, and the
identity survives the in-place mutations done by `_trim_tree`. -/
inductive LNode where
  | mk (nid : Nat) (tag : Str) (text : Str) (tail : Str) (children : List LNode)

def LNode.nid : LNode → Nat
  | .mk i _ _ _ _ => i

/-- Append one character of trailing text to the last completed child (its
lxml `tail`). -/
def addTail (c : Char) : List LNode → List LNode
  | [] => []
  | [.mk i t x l cs] => [.mk i t x (l ++ [c]) cs]
  | n :: ns => n :: addTail c ns

mutual

/-- `copy.deepcopy` of a completed live element: an independent `XNode`
value sharing nothing with the live tree. -/
def eraseN : LNode → XNode
  | .mk _ t x l cs => .mk t x l (eraseL cs)

/-- `copy.deepcopy` on a list of completed live elements. -/
def eraseL : List LNode → List XNode
  | [] => []
  | c :: cs => eraseN c :: eraseL cs

end

/-- lxml `element.clear()` on a live element (identity preserved). -/
def clearL : LNode → LNode
  | .mk i t _ _ _ => .mk i t [] [] []

/-- An open element: start tag consumed, end tag still pending.  `children`
holds its completed children. -/
structure Frame where
  fid : Nat
  tag : Str
  text : Str
  children : List LNode

/-- A parse event as recorded by the parser: the element's identity, its
tag, and the tag of its parent at the moment the event fired (`none` for
the root).  For an `events=('end',)` parser these are "element closed"
events in document order; for an `events=('start',)` parser, "element
started" events. -/
structure Ev where
  eid : Nat
  tag : Str
  ptag : Option Str
deriving DecidableEq

/-- State of one `XMLPullParser` instance.  `emitStart` selects the
subscribed event kind (`('start',)` vs `('end',)`).  `log` is every event
produced so far, oldest first; `drained` counts how many of them
`read_events` has already yielded, so the pending events are
`log.drop drained`.  `err` is set once the byte stream is rejected and is
never cleared (feeding after an error has no further effect). -/
structure PState where
  emitStart : Bool
  buffer : Str
  stack : List Frame
  doc : List LNode
  log : List Ev
  drained : Nat
  nextId : Nat
  err : Bool

/-- Split a buffer at the first `>`: the characters before it and the rest
after it. -/
def splitGt : Str → Option (Str × Str)
  | [] => none
  | c :: cs =>
    if c = '>' then some ([], cs)
    else match splitGt cs with
      | none => none
      | some (a, b) => some (c :: a, b)

def isWs (c : Char) : Bool :=
  c = ' ' || c = '\n' || c = '\t' || c = '\r'

/-- Tag name inside a start tag token: everything before the first space
or slash. -/
def nameOf (tok : Str) : Str :=
  tok.takeWhile (fun d => !(d = ' ' || d = '/'))

/-- Parent tag seen from an open-element stack (innermost first). -/
def ptagOf (fs : List Frame) : Option Str :=
  fs.head?.map Frame.tag

/-- Consume a start tag `<name ...>`: push a new open element; a second
top-level element after the root closed is a parse error.  An
`events=('start',)` parser records the start event here. -/
def openTag (s : PState) (name : Str) : PState :=
  if name = [] then { s with err := true }
  else match s.stack with
  | [] =>
    if s.doc.isEmpty then
      { s with stack := [⟨s.nextId, name, [], []⟩], nextId := s.nextId + 1,
               log := s.log ++ if s.emitStart then [⟨s.nextId, name, none⟩] else [] }
    else { s with err := true }
  | f :: fs =>
    { s with stack := ⟨s.nextId, name, [], []⟩ :: f :: fs, nextId := s.nextId + 1,
             log := s.log ++ if s.emitStart then [⟨s.nextId, name, some f.tag⟩] else [] }

/-- Consume an end tag `</name>`: close the innermost open element, attach
it to its parent (or to the document if it is the root), and, for an
`events=('end',)` parser, record the close event; a mismatched or
unmatched end tag is a parse error. -/
def closeTag (s : PState) (name : Str) : PState :=
  match s.stack with
  | [] => { s with err := true }
  | f :: fs =>
    if f.tag = name then
      let n := LNode.mk f.fid f.tag f.text [] f.children
      let ev : List Ev := if s.emitStart then [] else [⟨f.fid, f.tag, ptagOf fs⟩]
      match fs with
      | [] => { s with stack := [], doc := s.doc ++ [n], log := s.log ++ ev }
      | g :: gs =>
        { s with stack := { g with children := g.children ++ [n] } :: gs,
                 log := s.log ++ ev }
    else { s with err := true }

/-- Consume a self-closing tag `<name/>`: the element starts and closes at
once, so either kind of parser records exactly one event for it. -/
def selfClose (s : PState) (name : Str) : PState :=
  if name = [] then { s with err := true }
  else match s.stack with
  | [] =>
    if s.doc.isEmpty then
      { s with doc := [LNode.mk s.nextId name [] [] []], nextId := s.nextId + 1,
               log := s.log ++ [⟨s.nextId, name, none⟩] }
    else { s with err := true }
  | f :: fs =>
    { s with stack := { f with children := f.children ++ [LNode.mk s.nextId name [] [] []] } :: fs,
             nextId := s.nextId + 1,
             log := s.log ++ [⟨s.nextId, name, some f.tag⟩] }

/-- Consume one complete markup token (the characters between `<` and the
first `>`). -/
def handleTok (s : PState) (tok : Str) : PState :=
  match tok with
  | [] => { s with err := true }
  | c :: rest =>
    if c = '/' then closeTag s (rest.takeWhile (fun d => !(d = ' ')))
    else if c = '?' || c = '!' then s
    else if tok.getLast? = some '/' then selfClose s (nameOf tok.dropLast)
    else openTag s (nameOf tok)

/-- Consume one character of character data: inside an open element it
becomes text (before the first child) or the last child's tail; outside
any element only whitespace is accepted. -/
def handleChar (s : PState) (c : Char) : PState :=
  match s.stack with
  | [] => if isWs c then s else { s with err := true }
  | f :: fs =>
    match f.children with
    | [] => { s with stack := { f with text := f.text ++ [c] } :: fs }
    | _ :: _ => { s with stack := { f with children := addTail c f.children } :: fs }

/-- One parsing step: consume a complete token or one character from the
buffer; `none` when the parser is stuck (empty buffer, an incomplete tag
still awaiting its `>`, or a previous parse error). -/
def consumeStep (s : PState) : Option PState :=
  if s.err then none
  else match s.buffer with
  | [] => none
  | c :: rest =>
    if c = '<' then
      match splitGt rest with
      | none => none
      | some (tok, rest') => some (handleTok { s with buffer := rest' } tok)
    else some (handleChar { s with buffer := rest } c)

/-- Run parsing steps until stuck, with fuel (each step strictly shrinks
the buffer, so buffer length is enough fuel). -/
def consumeN : Nat → PState → PState
  | 0, s => s
  | n + 1, s =>
    match consumeStep s with
    | none => s
    | some s' => consumeN n s'

/-- `parser.feed(data)`: append the bytes and consume as far as possible. -/
def feed (s : PState) (c : Str) : PState :=
  consumeN (s.buffer.length + c.length) { s with buffer := s.buffer ++ c }

/-- A fresh parser instance subscribed to start events (`events=('start',)`,
line 61) or end events (`events=('end',)`, line 83). -/
def initP (es : Bool) : PState :=
  ⟨es, [], [], [], [], 0, 0, false⟩

def startP0 : PState := initP true

def endP0 : PState := initP false

/-! ## The streaming loop's per-event processing (lines 92-97) -/

/-- The dispatch test at line 95: the parent is `None` (the element is the
root) or the parent's tag equals the captured root tag name. -/
def passTest (rootTag : Str) : Option Str → Bool
  | none => true
  | some t => decide (t = rootTag)

mutual

/-- Process one pending "end" event inside a list of completed siblings
whose parent's tag is `ptag`: locate the element with identity `tid`
(line 93, `element.getparent()` is the list's owner); if the dispatch test
passes, deep-copy the element out (line 96) and apply `_trim_tree`
(line 97): clear it in place and delete the siblings before it.  Elements
failing the test are left untouched.  Returns the rewritten list, the
dispatched copy together with the parent tag that was observed, and
whether the element was found directly in this list (so that callers know
to drop preceding siblings at this level). -/
def procL (rootTag : Str) (tid : Nat) (ptag : Option Str) :
    List LNode → Option (List LNode × (Option (XNode × Option Str) × Bool))
  | [] => none
  | c :: cs =>
    if c.nid = tid then
      if passTest rootTag ptag then some (clearL c :: cs, (some (eraseN c, ptag), true))
      else some (c :: cs, (none, true))
    else
      match procN rootTag tid c with
      | some (c', d) => some (c' :: cs, (d, false))
      | none =>
        match procL rootTag tid ptag cs with
        | none => none
        | some (cs', (d, here)) =>
          if here && d.isSome then some (cs', (d, true))
          else some (c :: cs', (d, here))

/-- Search-and-process inside one completed element: its children's parent
tag is the element's own tag. -/
def procN (rootTag : Str) (tid : Nat) :
    LNode → Option (LNode × Option (XNode × Option Str))
  | .mk i t x l cs =>
    match procL rootTag tid (some t) cs with
    | some (cs', (d, _)) => some (.mk i t x l cs', d)
    | none => none

end

/-- Search-and-process across the open-element stack: completed elements
directly under an open frame have that frame as parent. -/
def procFrames (rootTag : Str) (tid : Nat) :
    List Frame → Option (List Frame × Option (XNode × Option Str))
  | [] => none
  | f :: fs =>
    match procL rootTag tid (some f.tag) f.children with
    | some (cs', (d, _)) => some ({ f with children := cs' } :: fs, d)
    | none =>
      match procFrames rootTag tid fs with
      | some (fs', d) => some (f :: fs', d)
      | none => none

/-- Process one pending event against the live tree: top-level completed
elements (the closed root) have no parent; everything else hangs under an
open frame or inside a completed element. -/
def drainOne (rootTag : Str) (s : PState) (e : Ev) : PState × Option (XNode × Option Str) :=
  match procL rootTag e.eid none s.doc with
  | some (doc', (d, _)) => ({ s with doc := doc' }, d)
  | none =>
    match procFrames rootTag e.eid s.stack with
    | some (st', d) => ({ s with stack := st' }, d)
    | none => (s, none)

/-- Process a list of pending events in order, collecting the dispatched
copies (with the parent tag observed for each). -/
def drainGo (rootTag : Str) : PState → List Ev → PState × List (XNode × Option Str)
  | s, [] => (s, [])
  | s, e :: es =>
    let pr := drainOne rootTag s e
    let rec' := drainGo rootTag pr.1 es
    (rec'.1, (match pr.2 with | none => rec'.2 | some p => p :: rec'.2))

/-- One pass of the `for dummy_action, element in events:` loop at lines
92-97: yield every pending event and process it. -/
def drainAll (rootTag : Str) (s : PState) : PState × List (XNode × Option Str) :=
  let pr := drainGo rootTag s (s.log.drop s.drained)
  ({ pr.1 with drained := s.log.length }, pr.2)

/-! ## Deep copy of the element referenced by a start event

A start event references a live element that may still be open; by the
time `read_events` yields the event, `feed` has already parsed the whole
chunk, so the element may already hold children (or even be closed).  A
deep copy therefore snapshots everything parsed into it so far. -/

mutual

/-- Find a completed element by identity. -/
def findN (tid : Nat) : LNode → Option LNode
  | .mk i t x l cs =>
    if i = tid then some (.mk i t x l cs) else findInL tid cs

/-- Find a completed element by identity in a forest. -/
def findInL (tid : Nat) : List LNode → Option LNode
  | [] => none
  | c :: cs =>
    match findN tid c with
    | some n => some n
    | none => findInL tid cs

end

/-- Walk the open-element stack from the innermost frame outwards,
assembling the snapshot of each open element (its completed children plus
the snapshot of its single open child), stopping at the frame with the
requested identity. -/
def snapGo (tid : Nat) : List Frame → Option XNode → Option XNode
  | [], _ => none
  | f :: fs, acc =>
    let snap : XNode :=
      .mk f.tag f.text [] (eraseL f.children ++ (match acc with | none => [] | some x => [x]))
    if f.fid = tid then some snap else snapGo tid fs (some snap)

/-- Find inside the children of some open frame. -/
def findInFrames (tid : Nat) : List Frame → Option LNode
  | [] => none
  | f :: fs =>
    match findInL tid f.children with
    | some n => some n
    | none => findInFrames tid fs

/-- `copy.deepcopy(element)` for the element referenced by an event, in
the current parser state. -/
def findSnap (s : PState) (tid : Nat) : Option XNode :=
  match findInL tid s.doc with
  | some n => some (eraseN n)
  | none =>
    match snapGo tid s.stack none with
    | some x => some x
    | none => (findInFrames tid s.stack).map eraseN

/-! ## The input queue and `_handle_root_start_tag` (lines 52-75) -/

/-- A value read from the input queue: a byte chunk, or the PoisonPill
sentinel. -/
inductive Item where
  | chunk (c : Str)
  | pill
deriving DecidableEq

/-- Result of `_handle_root_start_tag`.  `cancelled` models the
`return poisonpill.PoisonPill, None` at line 68; `starve` models the
`await self._input_queue.get()` at line 64 suspending forever because the
queue never yields another value; `perr` models an `etree.LxmlError`
raised by `root_parser.feed` and propagating into `keep_parsing`'s `try`;
`found` models the `return stream_start, root_start_tag_name` at line 75.
The `copy` component of `found` is the deep copy that the
`_copy_into_queues(element)` call at line 74 builds for the queues; the
`consumed` component lists the chunks read from the input queue by this
call (bookkeeping for stating byte-preservation, not data the code keeps
separately). -/
inductive RootRes where
  | cancelled
  | starve
  | perr
  | found (streamStart : Str) (rootTag : Str) (copy : XNode)
      (consumed : List Str) (rest : List Item)

/-- `_handle_root_start_tag` (lines 52-75): pull chunks, return on
PoisonPill, accumulate every received chunk into `stream_start`, feed the
start-event parser, and return on the first start event with the
accumulated bytes and the root tag name. -/
def handleRoot (p : PState) (acc : Str) (cons : List Str) : List Item → RootRes
  | [] => .starve
  | .pill :: _ => .cancelled
  | .chunk c :: rest =>
    let acc' := acc ++ c
    let p' := feed p c
    if p'.err then .perr
    else
      match p'.log.head? with
      | none => handleRoot p' acc' (cons ++ [c]) rest
      | some e => .found acc' e.tag ((findSnap p' e.eid).getD (.mk [] [] [] []))
          (cons ++ [c]) rest

/-! ## `keep_parsing` (lines 77-104) -/

/-- How one run of `keep_parsing` ends, as seen by its caller. -/
inductive Outcome where
  | returned
  | raised (e : PyErr)
  | starved
deriving DecidableEq

/-- Observable result of one run: the elements put to the output queue
(towards ROIMachine) and to the forward queue (towards MQTTForwarder), the
number of warning-level and debug-level log records emitted, the captured
root tag name, the final event log of the main end-event parser
(bookkeeping used to state ordering properties), and how the run ended. -/
structure ROut where
  out : List XNode
  fwd : List XNode
  warns : Nat
  debugs : Nat
  rootTag : Option Str
  planLog : List Ev
  outcome : Outcome
deriving DecidableEq

/-- The `while True:` loop at lines 91-102: drain and process all pending
end events, then read the next queue item; PoisonPill logs a debug record
and returns; a chunk is fed to the parser, a parse error there is caught
at line 103 and logged as one warning; an exhausted item list leaves the
coroutine suspended at line 98 forever.  `deliver` tells whether the
`_copy_into_queues(element)` coroutine created at line 96 is actually
awaited: as written the code never awaits it, so nothing reaches either
queue (`deliver = false`); `deliver = true` gives the documented
behaviour, with each dispatched copy delivered to both queues before
`_trim_tree` runs. -/
def loopM (deliver : Bool) (rootTag : Str) : List Item → PState → List XNode → ROut
  | [], p, acc =>
    let pr := drainAll rootTag p
    let acc' := acc ++ (if deliver then pr.2.map Prod.fst else [])
    ⟨acc', acc', 0, 0, some rootTag, pr.1.log, .starved⟩
  | .pill :: _, p, acc =>
    let pr := drainAll rootTag p
    let acc' := acc ++ (if deliver then pr.2.map Prod.fst else [])
    ⟨acc', acc', 0, 1, some rootTag, pr.1.log, .returned⟩
  | .chunk c :: rest, p, acc =>
    let pr := drainAll rootTag p
    let acc' := acc ++ (if deliver then pr.2.map Prod.fst else [])
    let p' := feed pr.1 c
    if p'.err then ⟨acc', acc', 1, 0, some rootTag, p'.log, .returned⟩
    else loopM deliver rootTag rest p' acc'

/-- Lines 86-102 given the value `_handle_root_start_tag` produces:
PoisonPill logs a debug record and returns (lines 87-89); a root-detection
parse error is caught at line 103 as one warning; otherwise the
accumulated bytes are fed to the end-event parser (line 90) and the
streaming loop runs.  `deliver` as in `loopM`; it likewise governs the
un-awaited `_copy_into_queues(element)` at line 74. -/
def postRoot (deliver : Bool) : RootRes → ROut
  | .cancelled => ⟨[], [], 0, 1, none, [], .returned⟩
  | .starve => ⟨[], [], 0, 0, none, [], .starved⟩
  | .perr => ⟨[], [], 1, 0, none, [], .returned⟩
  | .found ss tag copy _cons rest =>
    let dl := if deliver then [copy] else []
    let p := feed endP0 ss
    if p.err then ⟨dl, dl, 1, 0, some tag, p.log, .returned⟩
    else loopM deliver tag rest p dl

/-- The streaming pipeline of lines 86-104 under the await semantics the
docstrings document (the coroutine results of `_handle_root_start_tag` and
`_copy_into_queues` actually awaited). -/
def runModel (deliver : Bool) (items : List Item) : ROut :=
  postRoot deliver (handleRoot startP0 [] [] items)

/-- Python semantics of line 86: `self._handle_root_start_tag()` calls an
`async def` method without `await`, so the body does not run and the call
expression evaluates to a coroutine object. -/
inductive Unawaited where
  | coroutine

/-- Python semantics of `stream_start, root_start_tag_name = v` when `v`
is a coroutine object: iteration of a coroutine raises
`TypeError: cannot unpack non-iterable coroutine object`. -/
def unpackPair : Unawaited → Except PyErr (Str × Str)
  | .coroutine => .error .typeError

/-- `keep_parsing` (lines 77-104) as written: line 86 unpacks the
un-awaited coroutine returned by `self._handle_root_start_tag()`, which
raises `TypeError`; `except etree.LxmlError` at line 103 does not match
`TypeError`, so the exception escapes to the caller before any queue value
is read or any element is parsed.  The unreachable success branch of the
unpacking is the rest of the function with the un-awaited
`_copy_into_queues` calls delivering nothing (`deliver = false`). -/
def keep_parsing (items : List Item) : ROut :=
  match unpackPair Unawaited.coroutine with
  | .error e =>
    match e with
    | .lxmlError => ⟨[], [], 1, 0, none, [], .returned⟩
    | .typeError => ⟨[], [], 0, 0, none, [], .raised .typeError⟩
  | .ok _ => runModel false items

/-- `keep_parsing` under the await semantics the docstrings document: the
value of `_handle_root_start_tag` actually awaited at line 86 and the
`_copy_into_queues` coroutines actually awaited at lines 74 and 96, so
dispatched copies reach both queues.  Used to analyse the dispatch,
ordering and trimming logic of lines 87-102. -/
def keepParsingI (items : List Item) : ROut :=
  runModel true items

/-! ## Specification-side notions used to state the properties -/

/-- A byte stream accepted without parse error (by both parser
configurations, which tokenize identically) and containing at least one
start tag: the well-formedness premise of the chunk-independence
property. -/
def WellFormedStream (s : Str) : Prop :=
  (feed endP0 s).err = false ∧ (feed startP0 s).err = false ∧
    (feed startP0 s).log ≠ []

instance (s : Str) : Decidable (WellFormedStream s) := by
  unfold WellFormedStream; infer_instance

/-- The chunking-independent summary of a run: the captured root tag and
the full close-event sequence (tag and parent tag of every element, in the
order the end tags closed), from which the set and order of elements
passing the dispatch test is determined. -/
def runSummary (r : ROut) : Option Str × List Ev :=
  (r.rootTag, r.planLog)

/-- The tokenizer-visible control part of a parser state: everything that
steers `consumeStep` (buffer, error flag, open-element tags and ids,
whether each open element and the document already have children) together
with the event log it produces.  Event processing by the streaming loop
mutates only tree data that `ctl` discards, which is what makes the event
sequence independent of how the byte stream is chunked. -/
structure Ctl where
  emitStart : Bool
  buffer : Str
  stackCtl : List (Nat × Str × Bool)
  docEmpty : Bool
  log : List Ev
  nextId : Nat
  err : Bool

/-- Control projection of one open-element frame: identity, tag, and
whether it has no completed children yet. -/
def fctl (f : Frame) : Nat × Str × Bool :=
  (f.fid, f.tag, f.children.isEmpty)

/-- Control projection of a parser state. -/
def ctl (s : PState) : Ctl :=
  ⟨s.emitStart, s.buffer, s.stack.map fctl, s.doc.isEmpty, s.log, s.nextId, s.err⟩

/-- Ghost tokenizer on control states: mirror of `openTag`. -/
def openTagCtl (k : Ctl) (name : Str) : Ctl :=
  if name = [] then { k with err := true }
  else match k.stackCtl with
  | [] =>
    if k.docEmpty then
      { k with stackCtl := [(k.nextId, name, true)], nextId := k.nextId + 1,
               log := k.log ++ if k.emitStart then [⟨k.nextId, name, none⟩] else [] }
    else { k with err := true }
  | f :: fs =>
    { k with stackCtl := (k.nextId, name, true) :: f :: fs, nextId := k.nextId + 1,
             log := k.log ++ if k.emitStart then [⟨k.nextId, name, some f.2.1⟩] else [] }

/-- Ghost tokenizer on control states: mirror of `closeTag`. -/
def closeTagCtl (k : Ctl) (name : Str) : Ctl :=
  match k.stackCtl with
  | [] => { k with err := true }
  | f :: fs =>
    if f.2.1 = name then
      let ev : List Ev :=
        if k.emitStart then [] else [⟨f.1, f.2.1, fs.head?.map (fun g => g.2.1)⟩]
      match fs with
      | [] => { k with stackCtl := [], docEmpty := false, log := k.log ++ ev }
      | g :: gs =>
        { k with stackCtl := (g.1, g.2.1, false) :: gs, log := k.log ++ ev }
    else { k with err := true }

/-- Ghost tokenizer on control states: mirror of `selfClose`. -/
def selfCloseCtl (k : Ctl) (name : Str) : Ctl :=
  if name = [] then { k with err := true }
  else match k.stackCtl with
  | [] =>
    if k.docEmpty then
      { k with docEmpty := false, nextId := k.nextId + 1,
               log := k.log ++ [⟨k.nextId, name, none⟩] }
    else { k with err := true }
  | f :: fs =>
    { k with stackCtl := (f.1, f.2.1, false) :: fs, nextId := k.nextId + 1,
             log := k.log ++ [⟨k.nextId, name, some f.2.1⟩] }

/-- Ghost tokenizer on control states: mirror of `handleTok`. -/
def handleTokCtl (k : Ctl) (tok : Str) : Ctl :=
  match tok with
  | [] => { k with err := true }
  | c :: rest =>
    if c = '/' then closeTagCtl k (rest.takeWhile (fun d => !(d = ' ')))
    else if c = '?' || c = '!' then k
    else if tok.getLast? = some '/' then selfCloseCtl k (nameOf tok.dropLast)
    else openTagCtl k (nameOf tok)

/-- Ghost tokenizer on control states: mirror of `handleChar` (character
data never changes the control part of an open stack). -/
def handleCharCtl (k : Ctl) (c : Char) : Ctl :=
  match k.stackCtl with
  | [] => if isWs c then k else { k with err := true }
  | _ :: _ => k

/-- Ghost tokenizer on control states: mirror of `consumeStep`. -/
def stepCtl (k : Ctl) : Option Ctl :=
  if k.err then none
  else match k.buffer with
  | [] => none
  | c :: rest =>
    if c = '<' then
      match splitGt rest with
      | none => none
      | some (tok, rest') => some (handleTokCtl { k with buffer := rest' } tok)
    else some (handleCharCtl { k with buffer := rest } c)

/-- Ghost tokenizer on control states: mirror of `consumeN`. -/
def ctlN : Nat → Ctl → Ctl
  | 0, k => k
  | n + 1, k =>
    match stepCtl k with
    | none => k
    | some k' => ctlN n k'

/-- Ghost tokenizer on control states: mirror of `feed`. -/
def feedCtl (k : Ctl) (c : Str) : Ctl :=
  ctlN (k.buffer.length + c.length) { k with buffer := k.buffer ++ c }

/-- Normal form of a parser state: consume until stuck (the state `feed`
leaves behind). -/
def nf (s : PState) : PState :=
  consumeN s.buffer.length s

/-- Replace the unconsumed buffer of a parser state (proof-side helper for
relating differently-chunked feeds). -/
def setBuf (s : PState) (b : Str) : PState :=
  { s with buffer := b }

/-! ## Lemmas about `_trim_tree` -/

theorem isSome_get?_of_lt {α : Type} : ∀ (l : List α) (n : Nat), n < l.length →
    (l.get? n).isSome = true
  | _ :: _, 0, _ => rfl
  | _ :: l, n + 1, h => isSome_get?_of_lt l n (by simpa using h)
  | [], n, h => absurd h (by simp)

theorem trimLoop_run : ∀ (bs : List XNode) (m : XNode) (as : List XNode)
    (anc : List AncEntry),
    trimLoop (.child anc (bs ++ m :: as) bs.length) = .ok (.child anc (m :: as) 0)
  | [], m, as, anc => by simp [trimLoop]
  | b :: bs, m, as, anc => by
    have hg : ((b :: (bs ++ m :: as)).get? bs.length).isSome = true := by
      apply isSome_get?_of_lt
      simp only [List.length_cons, List.length_append]
      omega
    simp only [List.cons_append, List.length_cons, trimLoop, hg, if_true, List.tail_cons]
    exact trimLoop_run bs m as anc

theorem clearElem_at : ∀ (bs : List XNode) (n : XNode) (as : List XNode)
    (anc : List AncEntry),
    TrimCtx.clearElem (.child anc (bs ++ n :: as) bs.length) =
      .child anc (bs ++ clearNode n :: as) bs.length := by
  intro bs n as anc
  simp [TrimCtx.clearElem, List.take_left, List.drop_left, List.modifyHead]

/-! ## Claim theorems -/

/-- C9: for every dispatched element `n` with a parent, `_trim_tree`
clears `n`'s own content and removes from the parent exactly the siblings
that precede `n`: afterwards the cleared `n` is its parent's first child,
the following (not yet parsed) siblings `as` are untouched, and the
ancestors `anc` are untouched. -/
theorem c9_trim_exactly_preceding (anc : List AncEntry) (bs as : List XNode)
    (n : XNode) :
    trimTree (.child anc (bs ++ n :: as) bs.length) =
      .ok (.child anc (clearNode n :: as) 0) := by
  unfold trimTree
  rw [clearElem_at]
  exact trimLoop_run bs (clearNode n) as anc

/-- C10: applying `_trim_tree` to the root element (whose `getparent()` is
`None`) is safe: the element is cleared, and because the root has no
preceding sibling the loop guard fails at once, so the body
`del parent[0]` — which on the absent parent would raise `TypeError`, as
the second conjunct shows — never executes. -/
theorem c10_trim_root_safe (n : XNode) :
    trimTree (.root n) = .ok (.root (clearNode n)) ∧
      TrimCtx.delParentFirst (.root n) = .error .typeError :=
  ⟨by simp [trimTree, TrimCtx.clearElem, trimLoop], rfl⟩

/-- C1 (against the code as written): on a well-formed input the two sink
deliveries are never issued, let alone confirmed before `_trim_tree`: the
`_copy_into_queues` coroutines of lines 74 and 96 are never awaited, and
`keep_parsing` in fact raises `TypeError` at line 86 before parsing
anything, so both queues stay empty — while under the documented await
semantics the same input delivers a non-empty sequence. -/
theorem c1_deliveries_never_issued :
    keep_parsing [Item.chunk ("<root><a/></root>".toList)] =
      ⟨[], [], 0, 0, none, [], .raised .typeError⟩ ∧
    (keepParsingI [Item.chunk ("<root><a/></root>".toList)]).out ≠ [] :=
  ⟨rfl, by decide⟩

/-- C3 (against the code as written): for the input
`<root><a>1</a><b>2</b>` followed by PoisonPill — as one chunk or
byte-by-byte — the run does not dispatch `[root start tag, <a>1</a>,
<b>2</b>]` and does not end cleanly: it raises `TypeError` at line 86 with
both queues empty. -/
theorem c3_scenario_raises :
    keep_parsing [Item.chunk ("<root><a>1</a><b>2</b>".toList), Item.pill] =
      ⟨[], [], 0, 0, none, [], .raised .typeError⟩ ∧
    keep_parsing ((("<root><a>1</a><b>2</b>".toList).map (fun c => Item.chunk [c]))
        ++ [Item.pill]) =
      ⟨[], [], 0, 0, none, [], .raised .typeError⟩ ∧
    (keep_parsing [Item.chunk ("<root><a>1</a><b>2</b>".toList), Item.pill]).fwd ≠
      [XNode.mk ("root".toList) [] [] [],
       XNode.mk ("a".toList) ("1".toList) [] [],
       XNode.mk ("b".toList) ("2".toList) [] []] :=
  ⟨rfl, rfl, by decide⟩

/-- C5 (against the code as written): on a stream whose second tag
mismatches its opening tag, `keep_parsing` does not end after one warning;
it raises `TypeError` to its caller at line 86, with no warning logged.
Under the documented await semantics the same input would end with exactly
one warning and no exception. -/
theorem c5_exception_escapes :
    keep_parsing [Item.chunk ("<root><a></b>".toList)] =
      ⟨[], [], 0, 0, none, [], .raised .typeError⟩ ∧
    (keepParsingI [Item.chunk ("<root><a></b>".toList)]).warns = 1 ∧
    (keepParsingI [Item.chunk ("<root><a></b>".toList)]).outcome = .returned :=
  ⟨rfl, rfl, rfl⟩

/-- C6 (against the code as written): with PoisonPill as the first queue
value the run does not end cleanly — `keep_parsing` raises `TypeError` at
line 86 before any queue read happens; and even under the documented await
semantics the run, though clean and dispatch-free, logs one debug-level
record (line 88). -/
theorem c6_pill_never_read :
    keep_parsing [Item.pill] = ⟨[], [], 0, 0, none, [], .raised .typeError⟩ ∧
    keepParsingI [Item.pill] = ⟨[], [], 0, 1, none, [], .returned⟩ :=
  ⟨rfl, rfl⟩

/-- C8 (against the code as written): `_handle_root_start_tag` does
capture the root tag name from the first start event (first conjunct), but
delivers nothing to either sink: the `_copy_into_queues(element)` call at
line 74 creates a coroutine that is never awaited, and `keep_parsing`
raises `TypeError` at line 86 anyway, so both queues stay empty (second
and third conjuncts). -/
theorem c8_root_captured_never_delivered :
    handleRoot startP0 [] [] [Item.chunk ("<root><a/></root>".toList)] =
      .found ("<root><a/></root>".toList) ("root".toList)
        (XNode.mk ("root".toList) [] [] [XNode.mk ("a".toList) [] [] []])
        [("<root><a/></root>".toList)] [] ∧
    (keep_parsing [Item.chunk ("<root><a/></root>".toList)]).out = [] ∧
    (keep_parsing [Item.chunk ("<root><a/></root>".toList)]).fwd = [] :=
  ⟨rfl, rfl, rfl⟩

/-- C2: every element ever dispatched to the sinks is the root element or
a direct child of the document root.  This holds of the code as written
with an empty range: on every input, no element is ever dispatched to
either sink — the `_copy_into_queues` coroutines of lines 74 and 96 are
never awaited, and line 86 raises `TypeError` before anything is parsed —
so both sink sequences are always empty and the universally quantified
claim is vacuously true.  (Under the documented await semantics the
"direct child" part would fail: the line-95 tag comparison dispatches the
depth-2 element `<x/>` of `<root><root><x/></root></root>`; see
`intended_grandchild_dispatched` and `intended_dispatch_parent_tag`.) -/
theorem c2_nothing_ever_dispatched (items : List Item) :
    (keep_parsing items).out = [] ∧ (keep_parsing items).fwd = [] :=
  ⟨rfl, rfl⟩

/-- C4: for every well-formed input byte stream and any two chunkings of
it, `keep_parsing` dispatches identical element sequences to each sink.
This holds of the code as written in a degenerate way: `keep_parsing`
raises `TypeError` at line 86 before reading a single chunk, so under
every chunking each sink receives the identical empty sequence.  (Under
the documented await semantics full equality of the dispatched copies
would fail with the chunking — see `intended_chunking_changes_copies` —
while the close-event sequence, and so the order of dispatches, is
chunking-independent — see `intended_event_sequence_chunk_independent`.) -/
theorem c4_identical_sequences_any_chunking (cs1 cs2 : List Str)
    (_hj : cs1.flatten = cs2.flatten) (_hwf : WellFormedStream cs1.flatten) :
    (keep_parsing (cs1.map Item.chunk)).out =
        (keep_parsing (cs2.map Item.chunk)).out ∧
      (keep_parsing (cs1.map Item.chunk)).fwd =
        (keep_parsing (cs2.map Item.chunk)).fwd :=
  ⟨rfl, rfl⟩

/-- Witness for C4 at a concrete well-formed stream, chunked one way and
another. -/
theorem c4_identical_sequences_any_chunking_witness :
    (["<root><a/></root>".toList] : List Str).flatten =
        (["<root>".toList, "<a/></root>".toList] : List Str).flatten ∧
      WellFormedStream (["<root><a/></root>".toList] : List Str).flatten ∧
      ((keep_parsing ((["<root><a/></root>".toList] : List Str).map
            Item.chunk)).out =
          (keep_parsing ((["<root>".toList,
            "<a/></root>".toList] : List Str).map Item.chunk)).out ∧
        (keep_parsing ((["<root><a/></root>".toList] : List Str).map
            Item.chunk)).fwd =
          (keep_parsing ((["<root>".toList,
            "<a/></root>".toList] : List Str).map Item.chunk)).fwd) :=
  ⟨rfl, by decide,
    c4_identical_sequences_any_chunking ["<root><a/></root>".toList]
      ["<root>".toList, "<a/></root>".toList] rfl (by decide)⟩

/-- Under the documented await semantics (`keepParsingI`), the dispatch
logic would hand a nested element to the sinks on its own: in
`<root><root><x/></root></root>` the element `<x/>` sits two levels below
the document root (the event log in the second conjunct shows its parent
is the inner `root`, whose own parent is the outer `root`), yet the run
dispatches the bare copy of `<x/>` (second entry of the dispatched
sequence), because the line-95 test compares the parent's tag with the
root tag name and the inner element's tag collides with it. -/
theorem intended_grandchild_dispatched :
    (keepParsingI [Item.chunk ("<root><root><x/></root></root>".toList)]).fwd =
      [XNode.mk ("root".toList) [] []
         [XNode.mk ("root".toList) [] [] [XNode.mk ("x".toList) [] [] []]],
       XNode.mk ("x".toList) [] [] [],
       XNode.mk ("root".toList) [] [] [XNode.mk ("x".toList) [] [] []],
       XNode.mk ("root".toList) [] [] [XNode.mk ("root".toList) [] [] []]] ∧
    (feed endP0 ("<root><root><x/></root></root>".toList)).log =
      [⟨2, "x".toList, some ("root".toList)⟩,
       ⟨1, "root".toList, some ("root".toList)⟩,
       ⟨0, "root".toList, none⟩] :=
  ⟨rfl, rfl⟩

/-- Under the documented await semantics (`keepParsingI`), the dispatched
copies vary with the chunking: the same well-formed byte stream
`<root><a/></root>`, split as one chunk versus two, dispatches different
sequences, because with the coarse chunking the root-detector's deep copy
of the root element is taken only after the whole chunk was parsed, so it
already contains the child `<a/>`, while with the finer chunking it is the
bare start tag. -/
theorem intended_chunking_changes_copies :
    (keepParsingI [Item.chunk ("<root><a/></root>".toList)]).fwd ≠
      (keepParsingI [Item.chunk ("<root>".toList),
        Item.chunk ("<a/></root>".toList)]).fwd ∧
    ("<root><a/></root>".toList) = ("<root>".toList) ++ ("<a/></root>".toList) :=
  ⟨by decide, rfl⟩

/-- Invariant of the `_handle_root_start_tag` loop: whenever it returns
`found`, the chunks it consumed extend the bookkeeping list, the returned
`stream_start` extends the accumulator by exactly their concatenation, and
the remaining items are what is left of the input. -/
theorem handleRoot_inv : ∀ (items : List Item) (p : PState) (acc : Str)
    (cons : List Str) {ss tag : Str} {copy : XNode} {cons' : List Str}
    {rest : List Item},
    handleRoot p acc cons items = .found ss tag copy cons' rest →
    ∃ mid : List Str, cons' = cons ++ mid ∧ ss = acc ++ mid.flatten ∧
      items = mid.map Item.chunk ++ rest
  | [], _, _, _ => by intro h; exact absurd h (by simp [handleRoot])
  | .pill :: _, _, _, _ => by intro h; exact absurd h (by simp [handleRoot])
  | .chunk c :: items0, p, acc, cons => by
    intro h
    simp only [handleRoot] at h
    split at h
    · exact absurd h (by simp)
    · split at h
      · obtain ⟨mid0, h1, h2, h3⟩ := handleRoot_inv items0 (feed p c) (acc ++ c)
          (cons ++ [c]) h
        refine ⟨c :: mid0, ?_, ?_, ?_⟩
        · simp [h1]
        · simp only [h2, List.flatten_cons, List.append_assoc]
        · simp [h3]
      · injection h with h1 h2 h3 h4 h5
        subst h1; subst h2; subst h3; subst h4; subst h5
        exact ⟨[c], rfl, by simp, by simp⟩

/-- C7: whenever the Root Detector succeeds, the returned `stream_start` —
the byte sequence that line 90 feeds into the main end-event parser before
the streaming loop starts — equals the concatenation, in arrival order, of
every chunk it consumed from the input queue, those chunks being exactly
the consumed prefix of the input; no bytes are lost between the two parser
instances. -/
theorem c7_no_byte_loss (items : List Item) {ss tag : Str} {copy : XNode}
    {cons : List Str} {rest : List Item}
    (h : handleRoot startP0 [] [] items = .found ss tag copy cons rest) :
    ss = cons.flatten ∧ items = cons.map Item.chunk ++ rest := by
  obtain ⟨mid, h1, h2, h3⟩ := handleRoot_inv items startP0 [] [] h
  subst h1
  simp only [List.nil_append] at h2 ⊢
  exact ⟨h2, h3⟩

mutual

/-- If processing a pending event inside a sibling list dispatches a copy,
the dispatch test of line 95 held for the parent tag that was observed. -/
theorem procL_disp : ∀ (l : List LNode) (rt : Str) (tid : Nat)
    (ptag : Option Str) (l' : List LNode) (x : XNode) (pt : Option Str)
    (here : Bool),
    procL rt tid ptag l = some (l', (some (x, pt), here)) →
      passTest rt pt = true
  | [], rt, tid, ptag, l', x, pt, here => by
    intro h
    simp [procL] at h
  | c :: cs, rt, tid, ptag, l', x, pt, here => by
    intro h
    simp only [procL] at h
    split at h
    · split at h
      next hp =>
        simp only [Option.some.injEq, Prod.mk.injEq] at h
        obtain ⟨-, ⟨-, hpt⟩, -⟩ := h
        exact hpt ▸ hp
      next hp =>
        simp only [Option.some.injEq, Prod.mk.injEq] at h
        exact absurd h.2.1 (by simp)
    · split at h
      next c' d heq =>
        simp only [Option.some.injEq, Prod.mk.injEq] at h
        exact procN_disp c rt tid c' x pt (h.2.1 ▸ heq)
      next heq =>
        split at h
        next => exact absurd h (by simp)
        next cs' d here' heq2 =>
          split at h
          next hb =>
            simp only [Option.some.injEq, Prod.mk.injEq] at h
            exact procL_disp cs rt tid ptag cs' x pt here' (h.2.1 ▸ heq2)
          next hb =>
            simp only [Option.some.injEq, Prod.mk.injEq] at h
            exact procL_disp cs rt tid ptag cs' x pt here' (h.2.1 ▸ heq2)

/-- As `procL_disp`, inside one completed element. -/
theorem procN_disp : ∀ (n : LNode) (rt : Str) (tid : Nat) (n' : LNode)
    (x : XNode) (pt : Option Str),
    procN rt tid n = some (n', some (x, pt)) → passTest rt pt = true
  | .mk i t xx ll cs, rt, tid, n', x, pt => by
    intro h
    simp only [procN] at h
    split at h
    next cs' d hh heq =>
      simp only [Option.some.injEq, Prod.mk.injEq] at h
      exact procL_disp cs rt tid (some t) cs' x pt hh (by rw [← h.2]; exact heq)
    next => exact absurd h (by simp)

end

/-- As `procL_disp`, across the open-element stack. -/
theorem procFrames_disp : ∀ (fs : List Frame) (rt : Str) (tid : Nat)
    (fs' : List Frame) (x : XNode) (pt : Option Str),
    procFrames rt tid fs = some (fs', some (x, pt)) → passTest rt pt = true
  | [], rt, tid, fs', x, pt => by
    intro h
    simp [procFrames] at h
  | f :: fs, rt, tid, fs', x, pt => by
    intro h
    simp only [procFrames] at h
    split at h
    next cs' d here heq =>
      simp only [Option.some.injEq, Prod.mk.injEq] at h
      exact procL_disp f.children rt tid (some f.tag) cs' x pt here
        (by rw [← h.2]; exact heq)
    next =>
      split at h
      next fs0 d heq =>
        simp only [Option.some.injEq, Prod.mk.injEq] at h
        exact procFrames_disp fs rt tid fs0 x pt (by rw [← h.2]; exact heq)
      next => exact absurd h (by simp)

/-- As `procL_disp`, for one processed event against the whole live tree. -/
theorem drainOne_disp (rt : Str) (s : PState) (e : Ev) (x : XNode)
    (pt : Option Str) (h : (drainOne rt s e).2 = some (x, pt)) :
    passTest rt pt = true := by
  unfold drainOne at h
  split at h
  next doc' d here heq =>
    exact procL_disp s.doc rt e.eid none doc' x pt here (by rw [← h]; exact heq)
  next =>
    split at h
    next st' d heq =>
      exact procFrames_disp s.stack rt e.eid st' x pt (by rw [← h]; exact heq)
    next => exact absurd h (by simp)

/-- As `procL_disp`, for every copy dispatched while draining a list of
pending events. -/
theorem drainGo_disp : ∀ (es : List Ev) (rt : Str) (s : PState) (x : XNode)
    (pt : Option Str), (x, pt) ∈ (drainGo rt s es).2 → passTest rt pt = true
  | [], rt, s, x, pt => by
    intro h
    simp [drainGo] at h
  | e :: es, rt, s, x, pt => by
    intro h
    simp only [drainGo] at h
    rcases hd : (drainOne rt s e).2 with - | p
    · rw [hd] at h
      exact drainGo_disp es rt (drainOne rt s e).1 x pt h
    · rw [hd] at h
      rcases List.mem_cons.mp h with h1 | h1
      · exact drainOne_disp rt s e x pt (by rw [hd, h1])
      · exact drainGo_disp es rt (drainOne rt s e).1 x pt h1

/-- Every copy dispatched by one pass of the streaming loop's event
processing (lines 92-97) is dispatched with its parent absent (the element
is the root) or its parent's tag equal to the captured root tag name —
exactly the line-95 test, which is weaker than "root or direct child of
the root": a deeper element whose parent merely shares the root's tag also
passes (see `intended_grandchild_dispatched`). -/
theorem intended_dispatch_parent_tag (rt : Str) (p : PState) (x : XNode)
    (pt : Option Str) (h : (x, pt) ∈ (drainAll rt p).2) :
    pt = none ∨ pt = some rt := by
  have hp : passTest rt pt = true := by
    unfold drainAll at h
    exact drainGo_disp (p.log.drop p.drained) rt p x pt h
  cases pt with
  | none => exact Or.inl rfl
  | some t => exact Or.inr (by rw [of_decide_eq_true hp])

/-- `intended_dispatch_parent_tag` at a concrete state: after feeding
`<root><a/>` the end event of `a` is pending; draining dispatches the copy
of `a` with observed parent tag `root`. -/
theorem intended_dispatch_parent_tag_example :
    ((XNode.mk ("a".toList) [] [] [], some ("root".toList)) ∈
      (drainAll ("root".toList) (feed endP0 ("<root><a/>".toList))).2) ∧
    (some ("root".toList) = none ∨
      some ("root".toList) = some ("root".toList)) :=
  ⟨by decide, intended_dispatch_parent_tag ("root".toList)
    (feed endP0 ("<root><a/>".toList)) (XNode.mk ("a".toList) [] [] [])
    (some ("root".toList)) (by decide)⟩

/-- Witness for C7 at a concrete input: the detector consumes the two
chunks `<roo` and `t>x` (the first is an incomplete tag), and the returned
`stream_start` is their concatenation with the third chunk left over. -/
theorem c7_no_byte_loss_witness :
    ("<root>x".toList : Str) = ([("<roo".toList : Str), "t>x".toList]).flatten ∧
    ([Item.chunk ("<roo".toList), Item.chunk ("t>x".toList),
      Item.chunk ("y".toList)] : List Item) =
      ([("<roo".toList : Str), "t>x".toList]).map Item.chunk ++
        [Item.chunk ("y".toList)] :=
  @c7_no_byte_loss
    [Item.chunk ("<roo".toList), Item.chunk ("t>x".toList), Item.chunk ("y".toList)]
    ("<root>x".toList) ("root".toList)
    (XNode.mk ("root".toList) ("x".toList) [] [])
    [("<roo".toList : Str), "t>x".toList] [Item.chunk ("y".toList)] rfl

/-! ## The tokenizer consumes independently of chunk boundaries -/

theorem splitGt_append : ∀ {u a b : Str} (t : Str), splitGt u = some (a, b) →
    splitGt (u ++ t) = some (a, b ++ t)
  | [], a, b, t, h => by simp [splitGt] at h
  | c :: cs, a, b, t, h => by
    by_cases hc : c = '>'
    · subst hc
      rw [splitGt, if_pos rfl] at h
      injection h with h'
      injection h' with h1 h2
      subst h2
      rw [← h1]
      rfl
    · rw [splitGt, if_neg hc] at h
      rw [List.cons_append, splitGt, if_neg hc]
      cases hs : splitGt cs with
      | none => rw [hs] at h; exact absurd h (by simp)
      | some p =>
        obtain ⟨a0, b0⟩ := p
        rw [hs] at h
        injection h with h'
        injection h' with h1 h2
        rw [splitGt_append t hs]
        subst h2
        rw [← h1]

theorem splitGt_length : ∀ {u a b : Str}, splitGt u = some (a, b) →
    u.length = a.length + b.length + 1
  | [], a, b, h => by simp [splitGt] at h
  | c :: cs, a, b, h => by
    by_cases hc : c = '>'
    · subst hc
      rw [splitGt, if_pos rfl] at h
      injection h with h'
      injection h' with h1 h2
      subst h2
      rw [← h1]
      simp
    · rw [splitGt, if_neg hc] at h
      cases hs : splitGt cs with
      | none => rw [hs] at h; exact absurd h (by simp)
      | some p =>
        obtain ⟨a0, b0⟩ := p
        rw [hs] at h
        injection h with h'
        injection h' with h1 h2
        subst h2
        have := splitGt_length hs
        rw [← h1]
        simp only [List.length_cons]
        omega

theorem openTag_buffer (s : PState) (b name : Str) :
    openTag { s with buffer := b } name = { openTag s name with buffer := b } := by
  cases s
  unfold openTag
  dsimp only
  split
  · rfl
  · split <;> (try split) <;> rfl

theorem closeTag_buffer (s : PState) (b name : Str) :
    closeTag { s with buffer := b } name = { closeTag s name with buffer := b } := by
  cases s
  unfold closeTag
  dsimp only
  split
  · rfl
  · split
    · split <;> rfl
    · rfl

theorem selfClose_buffer (s : PState) (b name : Str) :
    selfClose { s with buffer := b } name = { selfClose s name with buffer := b } := by
  cases s
  unfold selfClose
  dsimp only
  split
  · rfl
  · split <;> (try split) <;> rfl

theorem handleTok_buffer (s : PState) (b tok : Str) :
    handleTok { s with buffer := b } tok = { handleTok s tok with buffer := b } := by
  unfold handleTok
  split
  · rfl
  · split
    · exact closeTag_buffer s b _
    · split
      · rfl
      · split
        · exact selfClose_buffer s b _
        · exact openTag_buffer s b _

theorem handleChar_buffer (s : PState) (b : Str) (c : Char) :
    handleChar { s with buffer := b } c = { handleChar s c with buffer := b } := by
  cases s
  unfold handleChar
  dsimp only
  split
  · split <;> rfl
  · split <;> rfl

theorem handleTok_buffer_eq (s : PState) (tok : Str) :
    (handleTok s tok).buffer = s.buffer := by
  have h := handleTok_buffer s s.buffer tok
  calc (handleTok s tok).buffer
      = (handleTok { s with buffer := s.buffer } tok).buffer := rfl
    _ = s.buffer := by rw [h]

theorem handleChar_buffer_eq (s : PState) (c : Char) :
    (handleChar s c).buffer = s.buffer := by
  have h := handleChar_buffer s s.buffer c
  calc (handleChar s c).buffer
      = (handleChar { s with buffer := s.buffer } c).buffer := rfl
    _ = s.buffer := by rw [h]

theorem consumeStep_shrink {s s' : PState} (h : consumeStep s = some s') :
    s'.buffer.length < s.buffer.length := by
  cases s with
  | mk es bf st doc lg dr ni er =>
    unfold consumeStep at h
    dsimp only at h
    cases er with
    | true => exact absurd h (by simp)
    | false =>
      simp only [Bool.false_eq_true, if_false] at h
      cases bf with
      | nil => exact absurd h (by simp)
      | cons c rest =>
        dsimp only at h
        by_cases hc : c = '<'
        · rw [if_pos hc] at h
          cases hs : splitGt rest with
          | none => rw [hs] at h; exact absurd h (by simp)
          | some p =>
            obtain ⟨tok, rest'⟩ := p
            rw [hs] at h
            cases h
            rw [handleTok_buffer_eq]
            have := splitGt_length hs
            dsimp only
            simp only [List.length_cons]
            omega
        · rw [if_neg hc] at h
          cases h
          rw [handleChar_buffer_eq]
          dsimp only
          simp

theorem handleTok_setBuf (s : PState) (b tok : Str) :
    handleTok (setBuf s b) tok = setBuf (handleTok s tok) b :=
  handleTok_buffer s b tok

theorem handleChar_setBuf (s : PState) (b : Str) (c : Char) :
    handleChar (setBuf s b) c = setBuf (handleChar s c) b :=
  handleChar_buffer s b c

theorem consumeStep_append {s s' : PState} (t : Str)
    (h : consumeStep s = some s') :
    consumeStep (setBuf s (s.buffer ++ t)) = some (setBuf s' (s'.buffer ++ t)) := by
  cases s with
  | mk es bf st doc lg dr ni er =>
    unfold consumeStep at h ⊢
    dsimp only [setBuf] at h ⊢
    cases er with
    | true => exact absurd h (by simp)
    | false =>
      simp only [Bool.false_eq_true, if_false] at h ⊢
      cases bf with
      | nil => exact absurd h (by simp)
      | cons c rest =>
        dsimp only [List.cons_append] at h ⊢
        by_cases hc : c = '<'
        · rw [if_pos hc] at h ⊢
          cases hs : splitGt rest with
          | none => rw [hs] at h; exact absurd h (by simp)
          | some p =>
            obtain ⟨tok, rest'⟩ := p
            rw [hs] at h
            rw [splitGt_append t hs]
            cases h
            refine congrArg some ?_
            rw [show (handleTok ⟨es, rest', st, doc, lg, dr, ni, false⟩ tok).buffer
                = rest' from handleTok_buffer_eq _ _]
            exact handleTok_setBuf ⟨es, rest', st, doc, lg, dr, ni, false⟩ (rest' ++ t) tok
        · rw [if_neg hc] at h ⊢
          cases h
          refine congrArg some ?_
          rw [show (handleChar ⟨es, rest, st, doc, lg, dr, ni, false⟩ c).buffer
              = rest from handleChar_buffer_eq _ _]
          exact handleChar_setBuf ⟨es, rest, st, doc, lg, dr, ni, false⟩ (rest ++ t) c

theorem consumeN_stuck {s : PState} (hs : consumeStep s = none) :
    ∀ n, consumeN n s = s
  | 0 => rfl
  | n + 1 => by rw [consumeN, hs]

theorem consumeN_min : ∀ (n : Nat) (s : PState), s.buffer.length ≤ n →
    consumeN n s = nf s := by
  intro n
  induction n using Nat.strong_induction_on with
  | _ n ih =>
    intro s hle
    cases hs : consumeStep s with
    | none => rw [consumeN_stuck hs, nf, consumeN_stuck hs]
    | some s' =>
      have hlt := consumeStep_shrink hs
      obtain ⟨m, rfl⟩ : ∃ m, n = m + 1 := ⟨n - 1, by omega⟩
      obtain ⟨k, hk⟩ : ∃ k, s.buffer.length = k + 1 := ⟨s.buffer.length - 1, by omega⟩
      rw [consumeN, hs, nf, hk, consumeN, hs]
      have h1 : consumeN m s' = nf s' := ih m (by omega) s' (by omega)
      have h2 : consumeN k s' = nf s' := ih k (by omega) s' (by omega)
      show consumeN m s' = consumeN k s'
      rw [h1, h2]

theorem nf_stuck_of_none {s : PState} (hs : consumeStep s = none) : nf s = s :=
  consumeN_stuck hs _

theorem nf_step {s s' : PState} (hs : consumeStep s = some s') : nf s = nf s' := by
  have hlt := consumeStep_shrink hs
  obtain ⟨k, hk⟩ : ∃ k, s.buffer.length = k + 1 := ⟨s.buffer.length - 1, by omega⟩
  rw [nf, hk, consumeN, hs]
  exact consumeN_min k s' (by omega)

theorem nf_append (s : PState) (t : Str) :
    nf (setBuf (nf s) ((nf s).buffer ++ t)) = nf (setBuf s (s.buffer ++ t)) := by
  cases hs : consumeStep s with
  | none => rw [nf_stuck_of_none hs]
  | some s' =>
    have h2 := consumeStep_append t hs
    calc nf (setBuf (nf s) ((nf s).buffer ++ t))
        = nf (setBuf (nf s') ((nf s').buffer ++ t)) := by rw [nf_step hs]
      _ = nf (setBuf s' (s'.buffer ++ t)) := nf_append s' t
      _ = nf (setBuf s (s.buffer ++ t)) := (nf_step h2).symm
termination_by s.buffer.length
decreasing_by exact consumeStep_shrink hs

theorem feed_nf (s : PState) (c : Str) : feed s c = nf (setBuf s (s.buffer ++ c)) := by
  unfold feed nf setBuf
  congr 1
  simp

theorem feed_feed (s : PState) (a b : Str) : feed (feed s a) b = feed s (a ++ b) := by
  rw [feed_nf s a, feed_nf, feed_nf s (a ++ b)]
  rw [nf_append (setBuf s (s.buffer ++ a)) b]
  show nf (setBuf s ((s.buffer ++ a) ++ b)) = nf (setBuf s (s.buffer ++ (a ++ b)))
  rw [List.append_assoc]

theorem consumeStep_err {s : PState} (h : s.err = true) : consumeStep s = none := by
  unfold consumeStep
  rw [if_pos h]

theorem feed_err_true {s : PState} (h : s.err = true) (a : Str) :
    (feed s a).err = true := by
  rw [feed_nf, nf_stuck_of_none (consumeStep_err (show (setBuf s (s.buffer ++ a)).err = true from h))]
  exact h

theorem feed_err_mono {s : PState} {a : Str} (h : (feed s a).err = false) :
    s.err = false := by
  by_contra hc
  rw [feed_err_true (by revert hc; cases s.err <;> simp) a] at h
  exact absurd h (by simp)

/-! ## The parser only appends to its event log -/

theorem openTag_log (s : PState) (name : Str) :
    ∃ t, (openTag s name).log = s.log ++ t := by
  unfold openTag
  split
  · exact ⟨[], by simp⟩
  · split
    · split
      · exact ⟨_, rfl⟩
      · exact ⟨[], by simp⟩
    · exact ⟨_, rfl⟩

theorem closeTag_log (s : PState) (name : Str) :
    ∃ t, (closeTag s name).log = s.log ++ t := by
  unfold closeTag
  split
  · exact ⟨[], by simp⟩
  · split
    · dsimp only
      split
      · exact ⟨_, rfl⟩
      · exact ⟨_, rfl⟩
    · exact ⟨[], by simp⟩

theorem selfClose_log (s : PState) (name : Str) :
    ∃ t, (selfClose s name).log = s.log ++ t := by
  unfold selfClose
  split
  · exact ⟨[], by simp⟩
  · split
    · split
      · exact ⟨_, rfl⟩
      · exact ⟨[], by simp⟩
    · exact ⟨_, rfl⟩

theorem handleTok_log (s : PState) (tok : Str) :
    ∃ t, (handleTok s tok).log = s.log ++ t := by
  unfold handleTok
  split
  · exact ⟨[], by simp⟩
  · split
    · exact closeTag_log s _
    · split
      · exact ⟨[], by simp⟩
      · split
        · exact selfClose_log s _
        · exact openTag_log s _

theorem handleChar_log (s : PState) (c : Char) :
    ∃ t, (handleChar s c).log = s.log ++ t := by
  unfold handleChar
  split
  · split
    · exact ⟨[], by simp⟩
    · exact ⟨[], by simp⟩
  · split
    · exact ⟨[], by simp⟩
    · exact ⟨[], by simp⟩

theorem consumeStep_log {s s' : PState} (h : consumeStep s = some s') :
    ∃ t, s'.log = s.log ++ t := by
  cases s with
  | mk es bf st doc lg dr ni er =>
    unfold consumeStep at h
    dsimp only at h
    cases er with
    | true => exact absurd h (by simp)
    | false =>
      simp only [Bool.false_eq_true, if_false] at h
      cases bf with
      | nil => exact absurd h (by simp)
      | cons c rest =>
        dsimp only at h
        by_cases hc : c = '<'
        · rw [if_pos hc] at h
          cases hs : splitGt rest with
          | none => rw [hs] at h; exact absurd h (by simp)
          | some p =>
            obtain ⟨tok, rest'⟩ := p
            rw [hs] at h
            cases h
            exact handleTok_log _ tok
        · rw [if_neg hc] at h
          cases h
          exact handleChar_log _ c

theorem consumeN_log : ∀ (n : Nat) (s : PState),
    ∃ t, (consumeN n s).log = s.log ++ t
  | 0, s => ⟨[], by simp [consumeN]⟩
  | n + 1, s => by
    rw [consumeN]
    cases hs : consumeStep s with
    | none => exact ⟨[], by simp⟩
    | some s' =>
      obtain ⟨t1, h1⟩ := consumeStep_log hs
      obtain ⟨t2, h2⟩ := consumeN_log n s'
      exact ⟨t1 ++ t2, by rw [h2, h1, List.append_assoc]⟩

theorem feed_log (s : PState) (a : Str) : ∃ t, (feed s a).log = s.log ++ t := by
  rw [feed_nf]
  exact consumeN_log _ _

theorem feed_log_head {s : PState} {a : Str} (h : s.log ≠ []) :
    (feed s a).log.head? = s.log.head? := by
  obtain ⟨t, ht⟩ := feed_log s a
  rw [ht]
  cases hl : s.log with
  | nil => exact absurd hl h
  | cons e l => simp

theorem feed_log_ne_nil {s : PState} {a : Str} (h : s.log ≠ []) :
    (feed s a).log ≠ [] := by
  obtain ⟨t, ht⟩ := feed_log s a
  rw [ht]
  cases hl : s.log with
  | nil => exact absurd hl h
  | cons e l => simp

/-! ## The ghost tokenizer simulates the parser on control states -/

theorem isEmpty_append_singleton {α : Type} (l : List α) (x : α) :
    (l ++ [x]).isEmpty = false := by
  cases l <;> rfl

theorem isEmpty_addTail (c : Char) : ∀ (l : List LNode),
    (addTail c l).isEmpty = l.isEmpty
  | [] => rfl
  | [.mk i t x tl cs] => rfl
  | n :: m :: ms => by simp [addTail]

theorem ctl_openTag (s : PState) (name : Str) :
    ctl (openTag s name) = openTagCtl (ctl s) name := by
  cases s with
  | mk es bf st doc lg dr ni er =>
    cases st with
    | nil =>
      unfold openTag openTagCtl ctl
      dsimp only [List.map_nil]
      split
      · rfl
      · split
        · rfl
        · rfl
    | cons f fs =>
      unfold openTag openTagCtl ctl
      dsimp only [List.map_cons]
      split
      · rfl
      · rfl

theorem ctl_closeTag (s : PState) (name : Str) :
    ctl (closeTag s name) = closeTagCtl (ctl s) name := by
  cases s with
  | mk es bf st doc lg dr ni er =>
    cases st with
    | nil => rfl
    | cons f fs =>
      obtain ⟨fi, ft, fx, fc⟩ := f
      by_cases ht : ft = name
      · cases fs with
        | nil =>
          simp [closeTag, closeTagCtl, ctl, fctl, ptagOf, ht,
            isEmpty_append_singleton]
        | cons g gs =>
          obtain ⟨gi, gt, gx, gc⟩ := g
          simp [closeTag, closeTagCtl, ctl, fctl, ptagOf, ht,
            isEmpty_append_singleton]
      · simp [closeTag, closeTagCtl, ctl, fctl, ht]

theorem ctl_selfClose (s : PState) (name : Str) :
    ctl (selfClose s name) = selfCloseCtl (ctl s) name := by
  cases s with
  | mk es bf st doc lg dr ni er =>
    by_cases hn : name = []
    · simp [selfClose, selfCloseCtl, ctl, hn]
    · cases st with
      | nil =>
        cases doc with
        | nil => simp [selfClose, selfCloseCtl, ctl, fctl, hn, List.isEmpty]
        | cons d ds =>
          simp [selfClose, selfCloseCtl, ctl, fctl, hn, List.isEmpty]
      | cons f fs =>
        obtain ⟨fi, ft, fx, fc⟩ := f
        simp [selfClose, selfCloseCtl, ctl, fctl, hn, isEmpty_append_singleton]

theorem ctl_handleTok (s : PState) (tok : Str) :
    ctl (handleTok s tok) = handleTokCtl (ctl s) tok := by
  unfold handleTok handleTokCtl
  split
  · rfl
  · split
    · exact ctl_closeTag s _
    · split
      · rfl
      · split
        · exact ctl_selfClose s _
        · exact ctl_openTag s _

theorem ctl_handleChar (s : PState) (c : Char) :
    ctl (handleChar s c) = handleCharCtl (ctl s) c := by
  cases s with
  | mk es bf st doc lg dr ni er =>
    cases st with
    | nil =>
      cases hw : isWs c <;> simp [handleChar, handleCharCtl, ctl, hw]
    | cons f fs =>
      obtain ⟨fi, ft, fx, fc⟩ := f
      cases fc with
      | nil => simp [handleChar, handleCharCtl, ctl, fctl, List.isEmpty]
      | cons n ns =>
        have ha : (addTail c (n :: ns)).isEmpty = false :=
          (isEmpty_addTail c (n :: ns)).trans rfl
        simp [handleChar, handleCharCtl, ctl, fctl, ha, List.isEmpty_cons]

theorem ctl_step (s : PState) : (consumeStep s).map ctl = stepCtl (ctl s) := by
  cases s with
  | mk es bf st doc lg dr ni er =>
    cases er with
    | true => rfl
    | false =>
      cases bf with
      | nil => rfl
      | cons c rest =>
        unfold consumeStep stepCtl ctl
        simp only [Bool.false_eq_true, if_false]
        by_cases hc : c = '<'
        · rw [if_pos hc, if_pos hc]
          cases hs : splitGt rest with
          | none => rfl
          | some p =>
            obtain ⟨tok, rest'⟩ := p
            exact congrArg some
              (ctl_handleTok ⟨es, rest', st, doc, lg, dr, ni, false⟩ tok)
        · rw [if_neg hc, if_neg hc]
          exact congrArg some
            (ctl_handleChar ⟨es, rest, st, doc, lg, dr, ni, false⟩ c)

theorem ctl_consumeN : ∀ (n : Nat) (s : PState),
    ctl (consumeN n s) = ctlN n (ctl s)
  | 0, s => rfl
  | n + 1, s => by
    have h := ctl_step s
    cases hs : consumeStep s with
    | none =>
      rw [hs] at h
      rw [show Option.map ctl (none : Option PState) = none from rfl] at h
      rw [consumeN, hs, ctlN, ← h]
    | some s' =>
      rw [hs] at h
      rw [show Option.map ctl (some s') = some (ctl s') from rfl] at h
      rw [consumeN, hs, ctlN, ← h]
      exact ctl_consumeN n s'

theorem ctl_feed (s : PState) (c : Str) : ctl (feed s c) = feedCtl (ctl s) c := by
  unfold feed feedCtl
  rw [ctl_consumeN]
  rfl

/-! ## Event processing leaves the tokenizer's control state unchanged -/

theorem isEmpty_false_of_ne_nil {α : Type} {l : List α} (h : l ≠ []) :
    l.isEmpty = false := by
  cases l with
  | nil => exact absurd rfl h
  | cons x xs => rfl

theorem procL_ne_nil : ∀ (l : List LNode) (rt : Str) (tid : Nat)
    (ptag : Option Str) (l' : List LNode) (d : Option (XNode × Option Str) × Bool),
    procL rt tid ptag l = some (l', d) → l' ≠ []
  | [], rt, tid, ptag, l', d => by
    intro h
    simp [procL] at h
  | c :: cs, rt, tid, ptag, l', d => by
    intro h
    simp only [procL] at h
    split at h
    · split at h
      · injection h with h'
        injection h' with h1 h2
        rw [← h1]
        simp
      · injection h with h'
        injection h' with h1 h2
        rw [← h1]
        simp
    · split at h
      next c' d0 heq =>
        injection h with h'
        injection h' with h1 h2
        rw [← h1]
        simp
      next heq =>
        split at h
        next => exact absurd h (by simp)
        next cs' d0 here0 heq2 =>
          split at h
          next hb =>
            injection h with h'
            injection h' with h1 h2
            rw [← h1]
            exact procL_ne_nil cs rt tid ptag cs' (d0, here0) heq2
          next hb =>
            injection h with h'
            injection h' with h1 h2
            rw [← h1]
            simp

theorem procFrames_fctl : ∀ (fs : List Frame) (rt : Str) (tid : Nat)
    (fs' : List Frame) (d : Option (XNode × Option Str)),
    procFrames rt tid fs = some (fs', d) → fs'.map fctl = fs.map fctl
  | [], rt, tid, fs', d => by
    intro h
    simp [procFrames] at h
  | f :: fs, rt, tid, fs', d => by
    intro h
    simp only [procFrames] at h
    split at h
    next cs' d0 here0 heq =>
      injection h with h'
      injection h' with h1 h2
      rw [← h1]
      simp only [List.map_cons]
      congr 1
      have hne : f.children ≠ [] := by
        intro hnil
        rw [hnil] at heq
        simp [procL] at heq
      have hne' : cs' ≠ [] := procL_ne_nil _ _ _ _ _ _ heq
      simp [fctl, isEmpty_false_of_ne_nil hne, isEmpty_false_of_ne_nil hne']
    next =>
      split at h
      next fs0 d0 heq =>
        injection h with h'
        injection h' with h1 h2
        rw [← h1]
        simp only [List.map_cons]
        rw [procFrames_fctl fs rt tid fs0 d0 heq]
      next => exact absurd h (by simp)

theorem drainOne_ctl (rt : Str) (s : PState) (e : Ev) :
    ctl (drainOne rt s e).1 = ctl s := by
  unfold drainOne
  split
  next doc' d0 here0 heq =>
    have hne : s.doc ≠ [] := by
      intro hnil
      rw [hnil] at heq
      simp [procL] at heq
    have hne' : doc' ≠ [] := procL_ne_nil _ _ _ _ _ _ heq
    simp [ctl, isEmpty_false_of_ne_nil hne, isEmpty_false_of_ne_nil hne']
  next =>
    split
    next st' d0 heq =>
      simp [ctl, procFrames_fctl _ _ _ _ _ heq]
    next => rfl

theorem drainGo_ctl (rt : Str) : ∀ (es : List Ev) (s : PState),
    ctl (drainGo rt s es).1 = ctl s
  | [], s => rfl
  | e :: es, s => by
    rw [drainGo]
    calc ctl (drainGo rt (drainOne rt s e).1 es).1
        = ctl (drainOne rt s e).1 := drainGo_ctl rt es (drainOne rt s e).1
      _ = ctl s := drainOne_ctl rt s e

theorem drainAll_ctl (rt : Str) (s : PState) :
    ctl (drainAll rt s).1 = ctl s := by
  unfold drainAll
  calc ctl { (drainGo rt s (s.log.drop s.drained)).1 with drained := s.log.length }
      = ctl (drainGo rt s (s.log.drop s.drained)).1 := rfl
    _ = ctl s := drainGo_ctl rt _ s

/-! ## The streaming loop computes the event plan of the concatenated
byte stream -/

theorem loopM_plan (d : Bool) (rt : Str) : ∀ (cs : List Str) (p : PState)
    (acc : List XNode) (B : Str),
    ctl p = ctl (feed endP0 B) →
    (feed endP0 (B ++ cs.flatten)).err = false →
    (loopM d rt (cs.map Item.chunk) p acc).planLog =
        (feed endP0 (B ++ cs.flatten)).log ∧
      (loopM d rt (cs.map Item.chunk) p acc).rootTag = some rt ∧
      (loopM d rt (cs.map Item.chunk) p acc).outcome = .starved
  | [], p, acc, B, hc, herr => by
    have hl : (drainAll rt p).1.log = p.log := congrArg Ctl.log (drainAll_ctl rt p)
    have hp : p.log = (feed endP0 B).log := congrArg Ctl.log hc
    simp only [List.map_nil, loopM]
    refine ⟨?_, by trivial, by trivial⟩
    rw [hl, hp]
    simp
  | c :: cs, p, acc, B, hc, herr => by
    have hfl : B ++ (c :: cs).flatten = (B ++ c) ++ cs.flatten := by
      simp [List.flatten_cons, List.append_assoc]
    rw [hfl] at herr
    have hctl : ctl (feed (drainAll rt p).1 c) = ctl (feed endP0 (B ++ c)) := by
      rw [ctl_feed, drainAll_ctl, hc, ← ctl_feed, feed_feed]
    have herr' : (feed (drainAll rt p).1 c).err = false := by
      have h1 : (feed (drainAll rt p).1 c).err = (feed endP0 (B ++ c)).err :=
        congrArg Ctl.err hctl
      rw [h1]
      rw [show feed endP0 ((B ++ c) ++ cs.flatten)
          = feed (feed endP0 (B ++ c)) cs.flatten from (feed_feed _ _ _).symm] at herr
      exact feed_err_mono herr
    simp only [List.map_cons, loopM]
    rw [if_neg (by rw [herr']; simp)]
    rw [hfl]
    exact loopM_plan d rt cs (feed (drainAll rt p).1 c)
      (acc ++ (if d then (drainAll rt p).2.map Prod.fst else [])) (B ++ c)
      hctl herr

theorem detect_run (d : Bool) : ∀ (cs : List Str) (acc : Str) (cons : List Str),
    (feed startP0 acc).log = [] →
    (feed startP0 (acc ++ cs.flatten)).err = false →
    (feed endP0 (acc ++ cs.flatten)).err = false →
    (feed startP0 (acc ++ cs.flatten)).log ≠ [] →
    runSummary (postRoot d
        (handleRoot (feed startP0 acc) acc cons (cs.map Item.chunk))) =
      (((feed startP0 (acc ++ cs.flatten)).log.head?).map Ev.tag,
        (feed endP0 (acc ++ cs.flatten)).log)
  | [], acc, cons, h0, h1, h2, h3 => by
    simp only [List.flatten_nil, List.append_nil] at h3
    exact absurd h0 h3
  | c :: cs, acc, cons, h0, h1, h2, h3 => by
    have hfl : acc ++ (c :: cs).flatten = (acc ++ c) ++ cs.flatten := by
      simp [List.flatten_cons, List.append_assoc]
    rw [hfl] at h1 h2 h3 ⊢
    simp only [List.map_cons, handleRoot]
    rw [feed_feed]
    have herr : (feed startP0 (acc ++ c)).err = false := by
      rw [show feed startP0 ((acc ++ c) ++ cs.flatten)
          = feed (feed startP0 (acc ++ c)) cs.flatten from (feed_feed _ _ _).symm] at h1
      exact feed_err_mono h1
    rw [if_neg (by rw [herr]; simp)]
    cases hl : (feed startP0 (acc ++ c)).log.head? with
    | none =>
      have hnil : (feed startP0 (acc ++ c)).log = [] := by
        cases hx : (feed startP0 (acc ++ c)).log with
        | nil => rfl
        | cons e l => rw [hx] at hl; exact absurd hl (by simp)
      exact detect_run d cs (acc ++ c) (cons ++ [c]) hnil h1 h2 h3
    | some e =>
      simp only [postRoot]
      have herr2 : (feed endP0 (acc ++ c)).err = false := by
        rw [show feed endP0 ((acc ++ c) ++ cs.flatten)
            = feed (feed endP0 (acc ++ c)) cs.flatten from (feed_feed _ _ _).symm] at h2
        exact feed_err_mono h2
      rw [if_neg (by rw [herr2]; simp)]
      obtain ⟨l1, l2, l3⟩ := loopM_plan d e.tag cs (feed endP0 (acc ++ c))
        (if d then [(findSnap (feed startP0 (acc ++ c)) e.eid).getD (.mk [] [] [] [])]
          else [])
        (acc ++ c) rfl h2
      have hne : (feed startP0 (acc ++ c)).log ≠ [] := by
        intro hnil
        rw [hnil] at hl
        exact absurd hl (by simp)
      have hh : (feed startP0 ((acc ++ c) ++ cs.flatten)).log.head? = some e := by
        rw [show feed startP0 ((acc ++ c) ++ cs.flatten)
            = feed (feed startP0 (acc ++ c)) cs.flatten from (feed_feed _ _ _).symm]
        rw [feed_log_head hne, hl]
      unfold runSummary
      rw [l1, l2, hh]
      rfl

/-- The summary of a run — captured root tag plus the complete close-event
sequence — equals the event plan of the concatenated byte stream. -/
theorem runModel_plan (cs : List Str) (d : Bool)
    (hwf : WellFormedStream cs.flatten) :
    runSummary (runModel d (cs.map Item.chunk)) =
      (((feed startP0 cs.flatten).log.head?).map Ev.tag,
        (feed endP0 cs.flatten).log) := by
  obtain ⟨h1, h2, h3⟩ := hwf
  exact detect_run d cs [] [] rfl h2 h1 h3

/-- Under the documented await semantics (`keepParsingI`): for a
well-formed byte stream, any two chunkings produce runs that agree on the
captured root tag and on the entire close-event sequence — each closed
element's tag and its parent's tag at close, in end tag order — and hence
on which elements pass the dispatch test and in what order each sink
receives them.  Equality of the dispatched deep copies themselves does not
hold: a copy's content depends on what had been parsed when the copy was
taken (tail text accrued after the element closed, and children already
inside the root element when its start-tag copy was made), which varies
with the chunking (see `intended_chunking_changes_copies`). -/
theorem intended_event_sequence_chunk_independent (cs1 cs2 : List Str)
    (hj : cs1.flatten = cs2.flatten) (hwf : WellFormedStream cs1.flatten) :
    runSummary (keepParsingI (cs1.map Item.chunk)) =
      runSummary (keepParsingI (cs2.map Item.chunk)) := by
  unfold keepParsingI
  rw [runModel_plan cs1 true hwf, runModel_plan cs2 true (by rw [← hj]; exact hwf),
    hj]

/-- `intended_event_sequence_chunk_independent` at a concrete input: the
stream `<root><a/></root>` fed as one chunk versus two chunks yields the
same run summary. -/
theorem intended_event_sequence_example :
    (["<root><a/></root>".toList] : List Str).flatten =
      (["<root>".toList, "<a/></root>".toList] : List Str).flatten ∧
    WellFormedStream (["<root><a/></root>".toList] : List Str).flatten ∧
    runSummary (keepParsingI ((["<root><a/></root>".toList] : List Str).map
        Item.chunk)) =
      runSummary (keepParsingI ((["<root>".toList,
        "<a/></root>".toList] : List Str).map Item.chunk)) :=
  ⟨rfl, by decide,
    intended_event_sequence_chunk_independent ["<root><a/></root>".toList]
      ["<root>".toList, "<a/></root>".toList] rfl (by decide)⟩

end Roiorbison
